import Mathlib

/-!
Verification of the PathFinder route-computation system.

The JavaScript front-end (src/static/js/algorithms.js, src/static/js/leaflet_map.js
and the variant src/unnamed/part_000) is embedded directly from the source.
The Python backend (app.py and the algorithms/ package, described by the spec as
GeometrySampler, SyntheticGraphBuilder, PathfindingEngine, ResultAssembler) is not
among the given sources; definitions for it are modelled from the spec and say so
in their doc comments.
-/

open scoped NNRat

namespace PathFinder

/-! ## AlgorithmManager state (src/unnamed/part_000 lines 7-14, 289-313;
src/static/js/algorithms.js lines 7-14, 282-306 is the same class without the
`bidirectional` bucket). -/

/-- The history buckets of `AlgorithmManager`: `nodeHistory` and `metricHistories`
are objects keyed by these three algorithm names (part_000 constructor, lines 7-14). -/
inductive Algo
  | dijkstra
  | astar
  | bidirectional
deriving DecidableEq

/-- The four metric keys of each `metricHistories[algo]` object. -/
inductive Metric
  | nodes_explored
  | edges_relaxed
  | heuristic_calls
  | priority_queue_operations
deriving DecidableEq

/-- JS object-key lookup `this.nodeHistory[algo]`: the bucket exists only for the
three fixed keys; any other string yields `undefined` (falsy). -/
def lookupBucket : String → Option Algo
  | "dijkstra" => some .dijkstra
  | "astar" => some .astar
  | "bidirectional" => some .bidirectional
  | _ => none

/-- The mutable history state of an `AlgorithmManager` instance. -/
structure AMState where
  nodeHistory : Algo → List ℕ
  metricHistories : Algo → Metric → List ℕ

/-- Constructor state: all history arrays empty (part_000 lines 7-14). -/
def AMState.init : AMState where
  nodeHistory := fun _ => []
  metricHistories := fun _ _ => []

/-- `this.maxHistory = 3` (part_000 line 8). -/
def maxHistory : ℕ := 3

/-- The push-then-shift idiom used by both record methods
(`arr.push(v); if (arr.length > this.maxHistory) arr.shift();`). -/
def pushCap (l : List ℕ) (v : ℕ) : List ℕ :=
  let l' := l ++ [v]
  if maxHistory < l'.length then l'.tail else l'

/-- The guard of `recordNodeHistory` (part_000 lines 289-290): the call records
`value` into bucket `algo` only when `value` is truthy (a nonzero number; `0`,
`undefined` and `null` are falsy) and the bucket exists.  `value : Option ℕ`
models the JS argument, which may be `undefined`. -/
def nodeRec (algo : String) (value : Option ℕ) : Option (Algo × ℕ) :=
  match lookupBucket algo, value with
  | some a, some (Nat.succ n) => some (a, n + 1)
  | _, _ => none

/-- `recordNodeHistory(algo, value)` (part_000 lines 289-295). -/
def recordNodeHistory (s : AMState) (algo : String) (value : Option ℕ) : AMState :=
  match nodeRec algo value with
  | none => s
  | some (a, v) =>
    { s with nodeHistory := Function.update s.nodeHistory a (pushCap (s.nodeHistory a) v) }

/-- The `complexity_analysis` block of a route result, as read by the JS layer
(fields absent from the JSON are `none`).  The JS field `efficiency_ratio` is
named `efficiency_ratio_pct` here. -/
structure ComplexityBlock where
  nodes_explored : Option ℕ
  edges_relaxed : Option ℕ
  heuristic_calls : Option ℕ
  priority_queue_operations : Option ℕ
  execution_time_ms : Option ℚ
  efficiency_ratio_pct : Option ℚ
  performance_insights : List String
deriving DecidableEq

/-- The `detailed_metrics` block of a route result. -/
structure DetailedBlock where
  edges_relaxed : Option ℕ
  heuristic_calls : Option ℕ
  priority_queue_operations : Option ℕ
deriving DecidableEq

/-- The `performance_analysis` block. -/
structure PerfAnalysis where
  complexity_analysis : Option ComplexityBlock
  detailed_metrics : Option DetailedBlock
deriving DecidableEq

/-- A single-algorithm route result as the JS layer reads it: every field the
front-end dereferences, each optional because the JS guards for absence. -/
structure JsRoute where
  error : Option String
  algorithm : Option String
  coordinates : List (ℚ × ℚ)
  total_distance : Option ℚ
  duration_minutes : Option ℚ
  execution_time : Option ℚ
  nodes_explored : Option ℕ
  performance_analysis : Option PerfAnalysis
deriving DecidableEq

/-- The empty object `{}` that `||` substitutes for a missing
`complexity_analysis` (part_000 line 300). -/
def emptyComplexity : ComplexityBlock :=
  ⟨none, none, none, none, none, none, []⟩

/-- The empty object `{}` substituted for a missing `detailed_metrics`. -/
def emptyDetailed : DetailedBlock :=
  ⟨none, none, none⟩

/-- `result.performance_analysis?.complexity_analysis || {}` (part_000 line 300). -/
def caOf (r : JsRoute) : ComplexityBlock :=
  ((r.performance_analysis.bind PerfAnalysis.complexity_analysis).getD emptyComplexity)

/-- `result.performance_analysis?.detailed_metrics || {}` (part_000 line 301). -/
def dmOf (r : JsRoute) : DetailedBlock :=
  ((r.performance_analysis.bind PerfAnalysis.detailed_metrics).getD emptyDetailed)

/-- The `snapshot` object built by `recordMetricHistory` (part_000 lines 302-307):
each metric falls back through `??` chains ending in `0`. -/
def snapshot (r : JsRoute) : Metric → ℕ
  | .nodes_explored => (((caOf r).nodes_explored).orElse fun _ => r.nodes_explored).getD 0
  | .edges_relaxed => (((dmOf r).edges_relaxed).orElse fun _ => (caOf r).edges_relaxed).getD 0
  | .heuristic_calls =>
    (((dmOf r).heuristic_calls).orElse fun _ => (caOf r).heuristic_calls).getD 0
  | .priority_queue_operations =>
    (((dmOf r).priority_queue_operations).orElse fun _ =>
      (caOf r).priority_queue_operations).getD 0

/-- The guard and bucket choice of `recordMetricHistory` (part_000 lines 298-299):
a missing result or falsy `algorithm` records nothing; otherwise `astar` and
`bidirectional` select their buckets and anything else falls back to `dijkstra`. -/
def metricRec (r? : Option JsRoute) : Option (Algo × JsRoute) :=
  match r? with
  | none => none
  | some r =>
    match r.algorithm with
    | none => none
    | some "" => none
    | some name =>
      some (if name = "astar" then .astar
        else if name = "bidirectional" then .bidirectional else .dijkstra, r)

/-- `recordMetricHistory(result)` (part_000 lines 297-313): pushes all four
snapshot metrics, each capped at `maxHistory`. -/
def recordMetricHistory (s : AMState) (r? : Option JsRoute) : AMState :=
  match metricRec r? with
  | none => s
  | some (a, r) =>
    let upd := Function.update s.metricHistories a
      fun m => pushCap (s.metricHistories a m) (snapshot r m)
    { s with metricHistories := upd }

/-- A call into the history-recording interface of `AlgorithmManager`. -/
inductive AMOp
  | node (algo : String) (value : Option ℕ)
  | metric (r? : Option JsRoute)

/-- Apply one recording call. -/
def applyOp (s : AMState) : AMOp → AMState
  | .node algo value => recordNodeHistory s algo value
  | .metric r? => recordMetricHistory s r?

/-- Apply a sequence of recording calls in order. -/
def applyOps (s : AMState) (ops : List AMOp) : AMState :=
  ops.foldl applyOp s

/-- The values actually recorded into `nodeHistory[a]` by a call sequence, in
call order. -/
def recordedNode (a : Algo) (ops : List AMOp) : List ℕ :=
  ops.filterMap fun op =>
    match op with
    | .node algo value =>
      match nodeRec algo value with
      | some (a', v) => if a' = a then some v else none
      | none => none
    | .metric _ => none

/-- The values actually recorded into `metricHistories[a][m]` by a call
sequence, in call order. -/
def recordedMetric (a : Algo) (m : Metric) (ops : List AMOp) : List ℕ :=
  ops.filterMap fun op =>
    match op with
    | .node _ _ => none
    | .metric r? =>
      match metricRec r? with
      | some (a', r) => if a' = a then some (snapshot r m) else none
      | none => none

/-- Keep the `maxHistory` most recent entries of a list. -/
def lastThree (l : List ℕ) : List ℕ :=
  l.drop (l.length - maxHistory)

/-! ## The POST body of /api/find-route
(src/static/js/algorithms.js lines 109-121 and 158-170; src/unnamed/part_000
lines 112-124 and 165-177). -/

/-- A JSON value as it appears at the top level of the request body.  Coordinate
pairs `[lat, lng]` are the only arrays the body contains. -/
inductive JsonVal
  | num (q : ℚ)
  | str (s : String)
  | jbool (b : Bool)
  | numPair (a b : ℚ)
deriving DecidableEq

/-- Whether a JSON value is a bare number (the only shape a node budget could
travel as). -/
def JsonVal.isNum : JsonVal → Bool
  | .num _ => true
  | _ => false

/-- The `requestData` object literal sent by both `findSingleRoute` and
`compareRoutes`.  The JS field `end` is called `endPoint` here (`end` is a Lean
keyword). -/
structure FindRouteRequest where
  start : ℚ × ℚ
  endPoint : ℚ × ℚ
  algorithm : String
  use_real_streets : Bool

/-- `findSingleRoute(algorithm)` builds its body from the selected endpoints and
the algorithm name, with `use_real_streets: true` (part_000 lines 113-118). -/
def findSingleRouteBody (s e : ℚ × ℚ) (algorithm : String) : FindRouteRequest :=
  ⟨s, e, algorithm, true⟩

/-- `compareRoutes()` always sends `algorithm: 'compare'` (part_000 lines 166-171). -/
def compareRoutesBody (s e : ℚ × ℚ) : FindRouteRequest :=
  ⟨s, e, "compare", true⟩

/-- `JSON.stringify(requestData)`: the serialized body as key/value pairs, in
object-literal order. -/
def requestJson (r : FindRouteRequest) : List (String × JsonVal) :=
  [("start", .numPair r.start.1 r.start.2),
   ("end", .numPair r.endPoint.1 r.endPoint.2),
   ("algorithm", .str r.algorithm),
   ("use_real_streets", .jbool r.use_real_streets)]

/-- Formalisation of the claim's words (for comparison with the body the code
builds): the request carries a node budget, i.e. some top-level field holds a
bare number. -/
def carriesNodeBudget (body : List (String × JsonVal)) : Prop :=
  ∃ kv ∈ body, kv.2.isNum = true

instance (body : List (String × JsonVal)) : Decidable (carriesNodeBudget body) :=
  List.decidableBEx _ body

/-! ## The compare-mode response and what `compareRoutes` consumes
(src/unnamed/part_000 lines 189-219 and 407-431; src/static/js/algorithms.js
lines 182-213 and 357-384). -/

/-- The `comparison` summary block of a compare response (shape per the spec,
since the producing backend is not among the sources). -/
structure ComparisonBlock where
  faster_algorithm : String
  shorter_path : String
  time_difference : ℚ
  distance_difference : ℚ
deriving DecidableEq

/-- A compare-mode response: one result block per algorithm plus the summary.
Modelled from the spec: the backend that produces it (app.py `compare` branch)
is not among the given sources; §6 of the spec fixes this shape. -/
structure CompareJs where
  error : Option String
  dijkstra : JsRoute
  astar : JsRoute
  bidirectional : JsRoute
  comparison : ComparisonBlock
deriving DecidableEq

/-- A route result with every optional field absent, used as a base for
concrete test responses. -/
def emptyJsRoute : JsRoute :=
  ⟨none, none, [], none, none, none, none, none⟩

/-- JS `a || b` on an optional number in truthy position: `0`, `undefined` and
`null` fall through to `b`. -/
def jsOrFalsyNat (a b : Option ℕ) : Option ℕ :=
  match a with
  | some (Nat.succ n) => some (n + 1)
  | _ => b

/-- The argument of `recordNodeHistory` in `compareRoutes`:
`result.X.nodes_explored || (result.X.performance_analysis?.complexity_analysis?.nodes_explored)`
(part_000 lines 196-197). -/
def nodeCountOf (r : JsRoute) : Option ℕ :=
  jsOrFalsyNat r.nodes_explored (caOf r).nodes_explored

/-- Everything `compareRoutes` (plus `updateComparisonPerformance`) does with the
parsed compare response: the history state it leaves behind, the two blocks it
hands to `displayComparison`, and the field values it interpolates into the
success message and the performance panel.  The assignment
`this.currentResults = result` is excluded: `currentResults` is written but never
read anywhere in the sources. -/
structure CompareEffects where
  historyAfter : AMState
  displayDijkstra : JsRoute
  displayAstar : JsRoute
  msgDijkstra : Option ℚ × Option ℚ × Option ℕ
  msgAstar : Option ℚ × Option ℚ × Option ℕ
  msgFaster : String
  msgShorter : String
  panelExecTimes : Option ℚ × Option ℚ
  panelNodes : Option ℕ × Option ℕ
  panelEff : ℚ × ℚ
  panelFaster : String
  panelShorter : String
  panelTimeDiff : ℚ

/-- The projection of a compare response onto the data `compareRoutes` actually
reads: the `dijkstra` and `astar` blocks and three of the four summary fields. -/
structure ConsumedCompare where
  dijkstra : JsRoute
  astar : JsRoute
  faster_algorithm : String
  shorter_path : String
  time_difference : ℚ

/-- The fields of a compare response that the caller reads. -/
def consumedOf (r : CompareJs) : ConsumedCompare :=
  ⟨r.dijkstra, r.astar, r.comparison.faster_algorithm, r.comparison.shorter_path,
    r.comparison.time_difference⟩

/-- The caller's consumption, written over the consumed projection only. -/
def compareEffectsOfConsumed (s : AMState) (c : ConsumedCompare) : CompareEffects :=
  let s1 := recordMetricHistory s (some c.dijkstra)
  let s2 := recordMetricHistory s1 (some c.astar)
  let s3 := recordNodeHistory s2 "dijkstra" (nodeCountOf c.dijkstra)
  let s4 := recordNodeHistory s3 "astar" (nodeCountOf c.astar)
  { historyAfter := s4
    displayDijkstra := c.dijkstra
    displayAstar := c.astar
    msgDijkstra :=
      (c.dijkstra.total_distance, c.dijkstra.duration_minutes, c.dijkstra.nodes_explored)
    msgAstar := (c.astar.total_distance, c.astar.duration_minutes, c.astar.nodes_explored)
    msgFaster := c.faster_algorithm
    msgShorter := c.shorter_path
    panelExecTimes := (c.dijkstra.execution_time, c.astar.execution_time)
    panelNodes := (c.dijkstra.nodes_explored, c.astar.nodes_explored)
    panelEff := ((caOf c.dijkstra).efficiency_ratio_pct.getD 0,
      (caOf c.astar).efficiency_ratio_pct.getD 0)
    panelFaster := c.faster_algorithm
    panelShorter := c.shorter_path
    panelTimeDiff := c.time_difference }

/-- The data flow of `compareRoutes` on a successfully parsed response, line by
line from part_000 lines 189-219 and 407-431 (algorithms.js lines 182-213 and
357-384 read the same fields). -/
def compareEffects (s : AMState) (result : CompareJs) : CompareEffects :=
  let s1 := recordMetricHistory s (some result.dijkstra)
  let s2 := recordMetricHistory s1 (some result.astar)
  let s3 := recordNodeHistory s2 "dijkstra" (nodeCountOf result.dijkstra)
  let s4 := recordNodeHistory s3 "astar" (nodeCountOf result.astar)
  { historyAfter := s4
    displayDijkstra := result.dijkstra
    displayAstar := result.astar
    msgDijkstra := (result.dijkstra.total_distance, result.dijkstra.duration_minutes,
      result.dijkstra.nodes_explored)
    msgAstar := (result.astar.total_distance, result.astar.duration_minutes,
      result.astar.nodes_explored)
    msgFaster := result.comparison.faster_algorithm
    msgShorter := result.comparison.shorter_path
    panelExecTimes := (result.dijkstra.execution_time, result.astar.execution_time)
    panelNodes := (result.dijkstra.nodes_explored, result.astar.nodes_explored)
    panelEff := ((caOf result.dijkstra).efficiency_ratio_pct.getD 0,
      (caOf result.astar).efficiency_ratio_pct.getD 0)
    panelFaster := result.comparison.faster_algorithm
    panelShorter := result.comparison.shorter_path
    panelTimeDiff := result.comparison.time_difference }

/-! ## calculateBearing (src/static/js/leaflet_map.js lines 1196-1206; the
duplicate class method at lines 374-391 computes the same expression, and in JS
the later definition is the one in effect). -/

/-- JS `Math.atan2(y, x)`: the argument of the complex number `x + y*i`, valued
in `(-π, π]` and `0` at the origin, matching `Math.atan2` over the reals. -/
noncomputable def atan2 (y x : ℝ) : ℝ :=
  Complex.arg ⟨x, y⟩

/-- Truncation toward zero, as JS `%` applies to the quotient. -/
noncomputable def jsTrunc (x : ℝ) : ℤ :=
  if 0 ≤ x then ⌊x⌋ else ⌈x⌉

/-- JS remainder `a % b`: `a - b * trunc(a / b)` (sign of the dividend). -/
noncomputable def jsMod (a b : ℝ) : ℝ :=
  a - b * jsTrunc (a / b)

/-- `calculateBearing(start, end)` (leaflet_map.js lines 1196-1206), with JS
numbers modelled as real numbers. -/
noncomputable def calculateBearing (start finish : ℝ × ℝ) : ℝ :=
  let lat1 := start.1 * Real.pi / 180
  let lat2 := finish.1 * Real.pi / 180
  let deltaLng := (finish.2 - start.2) * Real.pi / 180
  let x := Real.sin deltaLng * Real.cos lat2
  let y := Real.cos lat1 * Real.sin lat2 - Real.sin lat1 * Real.cos lat2 * Real.cos deltaLng
  let bearing := atan2 x y * 180 / Real.pi
  jsMod (bearing + 360) 360

/-! ## GeometrySampler -/

/-- Failure modes of the sampler (spec §7). -/
inductive GeometryError
  | insufficientGeometry
deriving DecidableEq

/-- Modelled from the spec: the sampling stride of GeometrySampler (§4.1), whose
implementation (Python backend) is not among the given sources.  The spec picks
`stride = ceil(N / budget)`; a zero budget (on which the spec's formula is
undefined) is clamped to stride 1. -/
def sampleStride (N budget : ℕ) : ℕ :=
  max 1 ((N + budget - 1) / budget)

/-- Modelled from the spec: the evenly spaced indices GeometrySampler keeps —
the multiples of the stride, with the last sample snapped to the final index so
that the final point is never dropped (§4.1) while the sample count stays
within the budget (§4.1 contract, §8). -/
def sampleIndices (N budget : ℕ) : List ℕ :=
  let s := sampleStride N budget
  let base := (List.range ((N + s - 1) / s)).map (· * s)
  base.dropLast ++ [N - 1]

/-- Modelled from the spec: GeometrySampler (§4.1).  Given an ordered polyline,
fails with `InsufficientGeometryError` when it has fewer than 2 points and
otherwise returns the points at the sampled indices, in order. -/
def samplePolyline (pts : List (ℚ × ℚ)) (budget : ℕ) :
    Except GeometryError (List (ℚ × ℚ)) :=
  if pts.length < 2 then .error .insufficientGeometry
  else .ok ((sampleIndices pts.length budget).map fun i => pts.getD i (0, 0))

/-! ## The synthetic graph and the pathfinding engine
Modelled from the spec (§3, §4.2, §4.4): the Python backend implementing them
(app.py and the algorithms/ package) is not among the given sources. -/

/-- A weighted directed graph on nodes `0 .. nodes-1`; edges are
`(from, to, weight)` with nonnegative rational weights (spec §3). -/
structure Graph where
  nodes : ℕ
  edges : List (ℕ × ℕ × ℚ≥0)

/-- The outgoing adjacency of a node: `(target, weight)` pairs. -/
def Graph.adj (g : Graph) (u : ℕ) : List (ℕ × ℚ≥0) :=
  g.edges.filterMap fun e => if e.1 = u then some e.2 else none

/-- Well-formedness: every edge endpoint is a node. -/
def Graph.WF (g : Graph) : Prop :=
  ∀ e ∈ g.edges, e.1 < g.nodes ∧ e.2.1 < g.nodes

instance (g : Graph) : Decidable g.WF :=
  inferInstanceAs (Decidable (∀ e ∈ g.edges, e.1 < g.nodes ∧ e.2.1 < g.nodes))

/-- The reverse graph, searched by the backward frontier of bidirectional
Dijkstra. -/
def Graph.reverse (g : Graph) : Graph :=
  ⟨g.nodes, g.edges.map fun e => (e.2.1, e.1, e.2.2)⟩

/-- `CostReach g s v c`: some walk in `g` from `s` to `v` has total weight `c`. -/
inductive CostReach (g : Graph) (s : ℕ) : ℕ → ℚ≥0 → Prop
  | refl : CostReach g s s 0
  | tail {u v : ℕ} {c w : ℚ≥0} :
      CostReach g s u c → (v, w) ∈ g.adj u → CostReach g s v (c + w)

/-- `v` is reachable from `s` in `g`. -/
def Reachable (g : Graph) (s v : ℕ) : Prop :=
  ∃ c, CostReach g s v c

/-- PerformanceCounters (spec §3): per-run search instrumentation. -/
structure Counters where
  nodes_explored : ℕ
  edges_relaxed : ℕ
  heuristic_calls : ℕ
  priority_queue_operations : ℕ
deriving DecidableEq

/-- The fresh counters record created per invocation (spec §4.5). -/
def Counters.zero : Counters :=
  ⟨0, 0, 0, 0⟩

/-- SearchRun (spec §3): the transient state of one search invocation —
tentative distances, finalized set, predecessor map and counters. -/
structure DState where
  dist : ℕ → WithTop ℚ≥0
  visited : ℕ → Bool
  prev : ℕ → Option ℕ
  counters : Counters

/-- The initial search state: distance 0 at the start, infinity elsewhere. -/
def initState (s : ℕ) : DState where
  dist := fun v => if v = s then 0 else ⊤
  visited := fun _ => false
  prev := fun _ => none
  counters := Counters.zero

/-- First-minimal element of `l` under `f` (FIFO tie-break: among equal
priorities the earliest entry wins, spec §4.4). -/
def listArgmin (f : ℕ → WithTop ℚ≥0) (l : List ℕ) : Option ℕ :=
  l.foldl (fun best v =>
    match best with
    | none => some v
    | some b => if f v < f b then some v else some b) none

/-- The dequeue of the priority structure: the first unvisited node with minimal
finite tentative distance, if any remains. -/
def pickNext (g : Graph) (st : DState) : Option ℕ :=
  listArgmin st.dist
    ((List.range g.nodes).filter fun v => !st.visited v && decide (st.dist v < ⊤))

/-- The number of finalized nodes (used to bound the number of loop steps). -/
def countVisited (g : Graph) (st : DState) : ℕ :=
  ((List.range g.nodes).filter fun v => st.visited v).length

/-- Relax one outgoing edge `(v, w)` of the dequeued node `u`, whose distance at
dequeue time is `du` (spec §4.4: `edges_relaxed` counts only strict
improvements; each improvement is one push/update on the queue). -/
def relaxEdge (u : ℕ) (du : WithTop ℚ≥0) (st : DState) (vw : ℕ × ℚ≥0) : DState :=
  if du + ↑vw.2 < st.dist vw.1 then
    { st with
      dist := Function.update st.dist vw.1 (du + ↑vw.2)
      prev := Function.update st.prev vw.1 (some u)
      counters := { st.counters with
        edges_relaxed := st.counters.edges_relaxed + 1
        priority_queue_operations := st.counters.priority_queue_operations + 1 } }
  else st

/-- Expand (dequeue) node `u`: count the expansion, mark it finalized and relax
its outgoing edges. -/
def expand (g : Graph) (st : DState) (u : ℕ) : DState :=
  let du := st.dist u
  let st1 := { st with
    visited := Function.update st.visited u true
    counters := { st.counters with nodes_explored := st.counters.nodes_explored + 1 } }
  (g.adj u).foldl (relaxEdge u du) st1

/-- The loop invariant of the search: the start has distance 0, every finite
tentative distance is witnessed by a walk, finalized distances are minimal,
every edge out of a finalized node into the frontier has been relaxed, and
finite distances only occur at nodes. -/
structure DInv (g : Graph) (s : ℕ) (st : DState) : Prop where
  dist_s : st.dist s = 0
  sound : ∀ v, st.dist v ≠ ⊤ → ∃ c : ℚ≥0, st.dist v = ↑c ∧ CostReach g s v c
  visited_min : ∀ v, st.visited v = true → ∀ c : ℚ≥0, CostReach g s v c → st.dist v ≤ ↑c
  frontier_edge : ∀ x, st.visited x = true → ∀ vw ∈ g.adj x,
    st.visited vw.1 = false → st.dist vw.1 ≤ st.dist x + ↑vw.2
  support : ∀ v, st.dist v ≠ ⊤ → v < g.nodes
  visited_finite : ∀ v, st.visited v = true → st.dist v ≠ ⊤

/-- The search loop, fuelled: `g.nodes` steps always suffice because every step
finalizes a previously unvisited node. -/
def dloop (g : Graph) : ℕ → DState → DState
  | 0, st => st
  | fuel + 1, st =>
    match pickNext g st with
    | none => st
    | some u => dloop g fuel (expand g st u)

/-- Modelled from the spec: Dijkstra (§4.4) on the synthetic graph — the final
search state. -/
def dijkstraRun (g : Graph) (s : ℕ) : DState :=
  dloop g g.nodes (initState s)

/-- The distance table Dijkstra ends with (`⊤` = unreachable). -/
def dijkstra (g : Graph) (s : ℕ) : ℕ → WithTop ℚ≥0 :=
  (dijkstraRun g s).dist

/-- PathResult (spec §3): node path, total distance and the counters snapshot. -/
structure PathResult where
  path : List ℕ
  distance : WithTop ℚ≥0
  counters : Counters

/-- Follow the predecessor map back from a node (fuel-bounded). -/
def walkBack (prev : ℕ → Option ℕ) : ℕ → ℕ → List ℕ
  | 0, _ => []
  | fuel + 1, v =>
    match prev v with
    | none => [v]
    | some u => walkBack prev fuel u ++ [v]

/-- Modelled from the spec: the shared search contract (§4.4).  `start == goal`
returns a single-node path with distance 0 and zero exploration; an unreachable
goal returns an empty path with distance infinity — a valid negative result,
not an error. -/
def searchResult (g : Graph) (s t : ℕ) : PathResult :=
  if s = t then ⟨[s], 0, Counters.zero⟩
  else
    let run := dijkstraRun g s
    if run.dist t = ⊤ then ⟨[], ⊤, run.counters⟩
    else ⟨walkBack run.prev (g.nodes + 1) t, run.dist t, run.counters⟩

/-- The result of bidirectional Dijkstra, with the extra bidirectional block of
spec §6 (meeting node and per-frontier exploration counts). -/
structure BidirResult where
  path : List ℕ
  distance : WithTop ℚ≥0
  meeting : Option ℕ
  forward_explored : ℕ
  reverse_explored : ℕ

/-- Modelled from the spec: Bidirectional Dijkstra (§4.4) — a forward frontier
from `s` and a backward frontier from `t` over the reverse graph.  The meeting
node minimises forward-distance + backward-distance (with FIFO tie-break); the
spec's stopping bound (stop once the frontiers' minimum priorities sum to at
least the best candidate) makes the operational two-queue search settle exactly
this minimum, so the frontiers are modelled by their settled distance tables.
The path is the forward predecessor chain to the meeting node joined with the
reversed backward chain from it. -/
def bidirectional (g : Graph) (s t : ℕ) : BidirResult :=
  let runF := dijkstraRun g s
  let runR := dijkstraRun g.reverse t
  match listArgmin (fun v => runF.dist v + runR.dist v) (List.range g.nodes) with
  | none =>
    ⟨[], ⊤, none, runF.counters.nodes_explored, runR.counters.nodes_explored⟩
  | some m =>
    if runF.dist m + runR.dist m = ⊤ then
      ⟨[], ⊤, none, runF.counters.nodes_explored, runR.counters.nodes_explored⟩
    else
      ⟨walkBack runF.prev (g.nodes + 1) m ++
          ((walkBack runR.prev (g.nodes + 1) m).reverse.tail),
        runF.dist m + runR.dist m, some m,
        runF.counters.nodes_explored, runR.counters.nodes_explored⟩

/-! ## SyntheticGraphBuilder and the full pipeline (spec §4.2, §2). -/

/-- The backend name of each algorithm family. -/
def algoName : Algo → String
  | .dijkstra => "dijkstra"
  | .astar => "astar"
  | .bidirectional => "bidirectional"

/-- Shortcut frequency per family (spec §4.2: rare for dijkstra, frequent for
astar, intermediate for bidirectional; the exact constants are tunable
presentation choices, deterministic in the node indices). -/
def shortcutEvery : Algo → ℕ
  | .dijkstra => 8
  | .astar => 3
  | .bidirectional => 5

/-- Forward hop length of shortcut edges per family (spec §4.2). -/
def shortcutHops : Algo → ℕ
  | .dijkstra => 4
  | .astar => 2
  | .bidirectional => 3

/-- Weight penalty factor of shortcut edges per family (spec §4.2: heavy for
dijkstra, light for astar, intermediate for bidirectional). -/
def shortcutPenalty : Algo → ℚ≥0
  | .dijkstra => 3 / 2
  | .astar => 11 / 10
  | .bidirectional => 13 / 10

/-- Modelled from the spec: SyntheticGraphBuilder (§4.2).  Primary edges join
consecutive sampled nodes in both directions, weighted by the great-circle
metric; shortcut edges jump forward `shortcutHops` indices from every
`shortcutEvery`-th node at a penalised weight.  Everything derives
deterministically from the node indices. -/
def buildGraph (metric : (ℚ × ℚ) → (ℚ × ℚ) → ℚ≥0) (fam : Algo)
    (pts : List (ℚ × ℚ)) : Graph :=
  let n := pts.length
  let pt := fun i => pts.getD i (0, 0)
  let primary := (List.range (n - 1)).flatMap fun i =>
    [(i, i + 1, metric (pt i) (pt (i + 1))), (i + 1, i, metric (pt i) (pt (i + 1)))]
  let shortcuts := (List.range n).filterMap fun i =>
    if i % shortcutEvery fam = 0 ∧ i + shortcutHops fam < n then
      some (i, i + shortcutHops fam,
        shortcutPenalty fam * metric (pt i) (pt (i + shortcutHops fam)))
    else none
  ⟨n, primary ++ shortcuts⟩

/-- The flat performance block of the single-algorithm output (spec §6).  The
spec field `efficiency_ratio` is named `efficiency_ratio_pct` here. -/
structure PerfBlock where
  nodes_explored : ℕ
  edges_relaxed : ℕ
  heuristic_calls : ℕ
  priority_queue_operations : ℕ
  efficiency_ratio_pct : ℚ
deriving DecidableEq

/-- The single-algorithm output structure (spec §6). -/
structure SingleResult where
  algorithm : String
  coordinates : List (ℚ × ℚ)
  total_distance : WithTop ℚ≥0
  duration_minutes : ℚ
  execution_time : ℚ
  performance : PerfBlock

/-- Modelled from the spec: ResultAssembler (§4.6) — expand the node path back
into coordinates, scale the duration proportionally against the source route,
compute `efficiency_ratio = reference / this_run × 100` and flatten the
counters.  `execTime` abstracts the measured wall-clock time (§4.5). -/
def assembleResult (algo : String) (pts : List (ℚ × ℚ)) (pr : PathResult)
    (refNodes : ℕ) (baseDistance : ℚ≥0) (baseDuration execTime : ℚ) :
    SingleResult where
  algorithm := algo
  coordinates := pr.path.map fun i => pts.getD i (0, 0)
  total_distance := pr.distance
  duration_minutes :=
    match pr.distance with
    | ⊤ => 0
    | (d : ℚ≥0) => baseDuration * ((d / baseDistance : ℚ≥0) : ℚ)
  execution_time := execTime
  performance :=
    ⟨pr.counters.nodes_explored, pr.counters.edges_relaxed,
      pr.counters.heuristic_calls, pr.counters.priority_queue_operations,
      (refNodes : ℚ) / (pr.counters.nodes_explored : ℚ) * 100⟩

/-- Modelled from the spec: the JSON wire shape of a single result (README
data-flow example §4): top-level fields plus the nested
`performance_analysis.complexity_analysis` / `detailed_metrics` blocks; no
`error` field on a success response. -/
def jsRouteOfSingle (r : SingleResult) : JsRoute where
  error := none
  algorithm := some r.algorithm
  coordinates := r.coordinates
  total_distance :=
    match r.total_distance with
    | ⊤ => none
    | (d : ℚ≥0) => some (d : ℚ)
  duration_minutes := some r.duration_minutes
  execution_time := some r.execution_time
  nodes_explored := some r.performance.nodes_explored
  performance_analysis := some
    ⟨some ⟨some r.performance.nodes_explored, some r.performance.edges_relaxed,
        some r.performance.heuristic_calls, some r.performance.priority_queue_operations,
        some r.execution_time, some r.performance.efficiency_ratio_pct, []⟩,
      some ⟨some r.performance.edges_relaxed, some r.performance.heuristic_calls,
        some r.performance.priority_queue_operations⟩⟩

/-- Modelled from the spec: the compare-mode response (§6) — a parallel result
block for each of the three algorithms plus the four-field comparison summary. -/
def mkCompareResponse (rd ra rb : SingleResult) : CompareJs :=
  let distQ := fun (r : SingleResult) =>
    match r.total_distance with
    | ⊤ => (0 : ℚ)
    | (d : ℚ≥0) => (d : ℚ)
  { error := none
    dijkstra := jsRouteOfSingle rd
    astar := jsRouteOfSingle ra
    bidirectional := jsRouteOfSingle rb
    comparison :=
      ⟨if rd.execution_time ≤ ra.execution_time then "dijkstra" else "astar",
        if distQ rd ≤ distQ ra then "dijkstra" else "astar",
        |rd.execution_time - ra.execution_time|,
        |distQ rd - distQ ra|⟩ }

/-- The error check of `findSingleRoute` (part_000 lines 126-134; algorithms.js
lines 123-131): a non-ok HTTP status or an `error` field in the parsed body
throws; any other response proceeds normally. -/
def findSingleRouteThrows (ok : Bool) (r : JsRoute) : Bool :=
  !ok || r.error.isSome

/-- What `displayRoute` draws: the polyline coordinates and the car icon's
algorithm tag (`routeData.algorithm || 'default'`). -/
structure DisplayedRoute where
  coordinates : List (ℚ × ℚ)
  carAlgorithm : String

/-- `displayRoute(routeData)` (leaflet_map.js lines 235-271): with no
coordinates it logs and returns without drawing anything — and without
throwing; otherwise it draws the animated route and car. -/
def displayRoute (r : JsRoute) : Option DisplayedRoute :=
  if r.coordinates.isEmpty then none
  else some ⟨r.coordinates, r.algorithm.getD "default"⟩

/-- Modelled from the spec: the full route-computation pipeline (§2 control
flow): sample the polyline, build the family graph, search from the first to
the last sampled node, assemble the result.  `metric` abstracts the
great-circle distance and `execTime` the measured wall-clock time. -/
def computeRoute (metric : (ℚ × ℚ) → (ℚ × ℚ) → ℚ≥0) (fam : Algo)
    (polyline : List (ℚ × ℚ)) (budget : ℕ) (baseDistance : ℚ≥0)
    (baseDuration execTime : ℚ) (refNodes : ℕ) :
    Except GeometryError SingleResult :=
  match samplePolyline polyline budget with
  | .error e => .error e
  | .ok pts =>
    let g := buildGraph metric fam pts
    let pr := searchResult g 0 (pts.length - 1)
    .ok (assembleResult (algoName fam) pts pr refNodes baseDistance baseDuration execTime)

/-! # Theorems -/

/-! ## History invariants (claims C8, C9) -/

theorem lastThree_length (l : List ℕ) : (lastThree l).length ≤ maxHistory := by
  simp only [lastThree, maxHistory, List.length_drop]
  omega

theorem pushCap_lastThree (r : List ℕ) (v : ℕ) :
    pushCap (lastThree r) v = lastThree (r ++ [v]) := by
  simp only [pushCap, lastThree, maxHistory, List.length_append, List.length_drop,
    List.length_singleton]
  rcases Nat.lt_or_ge r.length 3 with h | h
  · have h0 : r.length - 3 = 0 := by omega
    have h1 : r.length + 1 - 3 = 0 := by omega
    have hif : ¬ 3 < r.length + 1 := by omega
    simp [h0, h1, hif]
  · have hif : 3 < r.length - (r.length - 3) + 1 := by omega
    simp only [hif, if_true]
    rw [← @List.drop_append_of_le_length _ r [v] _ (by omega : r.length - 3 ≤ r.length),
      List.tail_drop]
    congr 1
    omega

theorem foldl_pushCap_lastThree (vs : List ℕ) : ∀ r : List ℕ,
    vs.foldl pushCap (lastThree r) = lastThree (r ++ vs) := by
  induction vs with
  | nil => intro r; simp
  | cons v vs ih =>
    intro r
    simp only [List.foldl_cons]
    rw [pushCap_lastThree, ih (r ++ [v]), List.append_assoc, List.singleton_append]

theorem applyOps_nodeHistory (a : Algo) (ops : List AMOp) : ∀ s : AMState,
    (applyOps s ops).nodeHistory a = (recordedNode a ops).foldl pushCap (s.nodeHistory a) := by
  induction ops with
  | nil => intro s; rfl
  | cons op rest ih =>
    intro s
    rw [show applyOps s (op :: rest) = applyOps (applyOp s op) rest from rfl, ih]
    cases op with
    | node algo value =>
      simp only [recordedNode, List.filterMap_cons]
      cases hrec : nodeRec algo value with
      | none =>
        simp only [hrec]
        have : applyOp s (.node algo value) = s := by
          simp [applyOp, recordNodeHistory, hrec]
        rw [this]
      | some av =>
        obtain ⟨a', v⟩ := av
        have happ : (applyOp s (.node algo value)).nodeHistory a =
            if a = a' then pushCap (s.nodeHistory a') v else s.nodeHistory a := by
          simp [applyOp, recordNodeHistory, hrec, Function.update_apply]
        by_cases hav : a' = a
        · subst hav
          simp only [hrec, if_pos rfl, List.foldl_cons]
          rw [happ, if_pos rfl]
          rfl
        · simp only [hrec, if_neg hav]
          rw [happ, if_neg (fun hh => hav hh.symm)]
    | metric r? =>
      have : (applyOp s (.metric r?)).nodeHistory a = s.nodeHistory a := by
        simp only [applyOp, recordMetricHistory]
        cases metricRec r? with
        | none => rfl
        | some ar => rfl
      rw [this]
      rfl

theorem applyOps_metricHistories (a : Algo) (m : Metric) (ops : List AMOp) :
    ∀ s : AMState,
    (applyOps s ops).metricHistories a m =
      (recordedMetric a m ops).foldl pushCap (s.metricHistories a m) := by
  induction ops with
  | nil => intro s; rfl
  | cons op rest ih =>
    intro s
    rw [show applyOps s (op :: rest) = applyOps (applyOp s op) rest from rfl, ih]
    cases op with
    | metric r? =>
      simp only [recordedMetric, List.filterMap_cons]
      cases hrec : metricRec r? with
      | none =>
        simp only [hrec]
        have : applyOp s (.metric r?) = s := by
          simp [applyOp, recordMetricHistory, hrec]
        rw [this]
      | some ar =>
        obtain ⟨a', r⟩ := ar
        have happ : (applyOp s (.metric r?)).metricHistories a m =
            if a = a' then pushCap (s.metricHistories a' m) (snapshot r m)
            else s.metricHistories a m := by
          simp only [applyOp, recordMetricHistory, hrec, Function.update_apply]
          by_cases hh : a = a' <;> simp [hh]
        by_cases hav : a' = a
        · subst hav
          simp only [hrec, if_pos rfl, List.foldl_cons]
          rw [happ, if_pos rfl]
          rfl
        · simp only [hrec, if_neg hav]
          rw [happ, if_neg (fun hh => hav hh.symm)]
    | node algo value =>
      have : (applyOp s (.node algo value)).metricHistories a m = s.metricHistories a m := by
        simp only [applyOp, recordNodeHistory]
        cases nodeRec algo value with
        | none => rfl
        | some av => rfl
      rw [this]
      rfl

/-- C8: after any sequence of `recordNodeHistory` and `recordMetricHistory`
calls starting from the constructor state, every per-algorithm history array
(`nodeHistory[algo]` and each `metricHistories[algo][metric]`) holds at most
`maxHistory = 3` entries, and always equals the most recently recorded values in
insertion order — the oldest entry is discarded when a record would exceed the
bound. -/
theorem algorithmManager_history_invariant (ops : List AMOp) (a : Algo) (m : Metric) :
    ((applyOps AMState.init ops).nodeHistory a).length ≤ maxHistory ∧
    ((applyOps AMState.init ops).metricHistories a m).length ≤ maxHistory ∧
    (applyOps AMState.init ops).nodeHistory a = lastThree (recordedNode a ops) ∧
    (applyOps AMState.init ops).metricHistories a m = lastThree (recordedMetric a m ops) := by
  have hn : (applyOps AMState.init ops).nodeHistory a = lastThree (recordedNode a ops) := by
    rw [applyOps_nodeHistory, show AMState.init.nodeHistory a = lastThree [] from rfl,
      foldl_pushCap_lastThree, List.nil_append]
  have hm : (applyOps AMState.init ops).metricHistories a m =
      lastThree (recordedMetric a m ops) := by
    rw [applyOps_metricHistories, show AMState.init.metricHistories a m = lastThree [] from rfl,
      foldl_pushCap_lastThree, List.nil_append]
  exact ⟨hn ▸ lastThree_length _, hm ▸ lastThree_length _, hn, hm⟩

/-- C9: `recordNodeHistory(algo, value)` with a falsy `value` (`0` or
`undefined`) or an `algo` that has no history bucket leaves the state
unchanged and records nothing. -/
theorem recordNodeHistory_noop (s : AMState) (algo : String) (value : Option ℕ)
    (h : value = none ∨ value = some 0 ∨ lookupBucket algo = none) :
    recordNodeHistory s algo value = s := by
  have hrec : nodeRec algo value = none := by
    rcases h with h | h | h
    · subst h
      unfold nodeRec
      cases lookupBucket algo <;> rfl
    · subst h
      unfold nodeRec
      cases lookupBucket algo <;> rfl
    · unfold nodeRec
      rw [h]
  simp [recordNodeHistory, hrec]

/-- Witness for C9 at a concrete input: `recordNodeHistory('compare', 7)` hits
the missing-bucket guard and changes nothing. -/
theorem recordNodeHistory_noop_witness :
    ((some 7 : Option ℕ) = none ∨ (some 7 : Option ℕ) = some 0 ∨
      lookupBucket "compare" = none) ∧
    recordNodeHistory AMState.init "compare" (some 7) = AMState.init :=
  ⟨Or.inr (Or.inr rfl),
    recordNodeHistory_noop AMState.init "compare" (some 7) (Or.inr (Or.inr rfl))⟩

/-! ## The /api/find-route request body (claim C2) -/

/-- C2 counterexample: at a concrete request, the POST body built by
`findSingleRoute` (and by `compareRoutes`) contains no node budget — no
top-level field of the serialized body is a bare number; the body is only the
endpoints, the algorithm name and the `use_real_streets` flag. -/
theorem findRouteBody_budget_counterexample :
    ¬ carriesNodeBudget (requestJson (findSingleRouteBody (1, 2) (3, 4) "dijkstra")) ∧
    ¬ carriesNodeBudget (requestJson (compareRoutesBody (1, 2) (3, 4))) := by
  decide

/-- C2 (amended): every POST body to /api/find-route contains exactly the four
fields `start`, `end`, `algorithm` and `use_real_streets` — the two endpoint
coordinates and the algorithm selector are present (always `compare` for
compare mode), but no node budget travels in the request; the node budget is
internal to the backend. -/
theorem findRouteBody_fields (s e : ℚ × ℚ) (a : String) :
    (requestJson (findSingleRouteBody s e a)).map Prod.fst =
      ["start", "end", "algorithm", "use_real_streets"] ∧
    requestJson (findSingleRouteBody s e a) =
      [("start", .numPair s.1 s.2), ("end", .numPair e.1 e.2),
        ("algorithm", .str a), ("use_real_streets", .jbool true)] ∧
    requestJson (compareRoutesBody s e) = requestJson (findSingleRouteBody s e "compare") ∧
    ¬ carriesNodeBudget (requestJson (findSingleRouteBody s e a)) := by
  refine ⟨rfl, rfl, rfl, ?_⟩
  rintro ⟨kv, hmem, hnum⟩
  simp only [requestJson, findSingleRouteBody, List.mem_cons, List.not_mem_nil,
    or_false] at hmem
  rcases hmem with h | h | h | h <;> subst h <;> simp [JsonVal.isNum] at hnum

/-! ## Compare-mode consumption (claim C3) -/

/-- C3 counterexample: two compare responses that differ exactly in the
`bidirectional` block and in the `distance_difference` summary field produce
identical caller effects — the caller does not consume every block and field:
it never reads `bidirectional` or `distance_difference`. -/
theorem compareRoutes_unconsumed_counterexample :
    (let r1 : CompareJs :=
      ⟨none, emptyJsRoute, emptyJsRoute, emptyJsRoute, ⟨"dijkstra", "astar", 1, 5⟩⟩
     let r2 : CompareJs :=
      ⟨none, emptyJsRoute, emptyJsRoute, { emptyJsRoute with nodes_explored := some 99 },
        ⟨"dijkstra", "astar", 1, 7⟩⟩
     compareEffects AMState.init r1 = compareEffects AMState.init r2 ∧
       r1.bidirectional ≠ r2.bidirectional ∧
       r1.comparison.distance_difference ≠ r2.comparison.distance_difference) :=
  ⟨rfl, by decide, by decide⟩

/-- C3 (amended): the compare response carries a block per algorithm (dijkstra,
astar, bidirectional) and the four-field summary; the caller consumes the
`dijkstra` and `astar` blocks and the `faster_algorithm`, `shorter_path` and
`time_difference` summary fields — its entire observable behaviour factors
through exactly that projection — while the `bidirectional` block and the
`distance_difference` field are returned but not consumed. -/
theorem compareRoutes_consumption (s : AMState) (r : CompareJs)
    (rd ra rb : SingleResult) :
    compareEffects s r = compareEffectsOfConsumed s (consumedOf r) ∧
    (compareEffects s r).displayDijkstra = r.dijkstra ∧
    (compareEffects s r).displayAstar = r.astar ∧
    (compareEffects s r).msgFaster = r.comparison.faster_algorithm ∧
    (compareEffects s r).msgShorter = r.comparison.shorter_path ∧
    (compareEffects s r).panelTimeDiff = r.comparison.time_difference ∧
    (mkCompareResponse rd ra rb).dijkstra = jsRouteOfSingle rd ∧
    (mkCompareResponse rd ra rb).astar = jsRouteOfSingle ra ∧
    (mkCompareResponse rd ra rb).bidirectional = jsRouteOfSingle rb :=
  ⟨rfl, rfl, rfl, rfl, rfl, rfl, rfl, rfl, rfl⟩

/-! ## The single-algorithm output structure (claim C4) -/

/-- C4: the single-algorithm output contains `algorithm`, `coordinates` (the
result path expanded to lat/lng pairs in order), `total_distance`,
`duration_minutes`, `execution_time` and a nested performance block carrying
`nodes_explored`, `edges_relaxed`, `heuristic_calls`,
`priority_queue_operations` and the efficiency ratio
(`reference / this_run × 100`); and the front-end snapshot recovers exactly
the four counters from the wire shape of that structure. -/
theorem assembleResult_fields (algo : String) (pts : List (ℚ × ℚ)) (pr : PathResult)
    (refNodes : ℕ) (baseDistance : ℚ≥0) (baseDuration execTime : ℚ) :
    (let r := assembleResult algo pts pr refNodes baseDistance baseDuration execTime
     r.algorithm = algo ∧
     r.coordinates = pr.path.map (fun i => pts.getD i (0, 0)) ∧
     r.total_distance = pr.distance ∧
     (r.duration_minutes =
       match pr.distance with
       | ⊤ => 0
       | (d : ℚ≥0) => baseDuration * ((d / baseDistance : ℚ≥0) : ℚ)) ∧
     r.execution_time = execTime ∧
     r.performance.nodes_explored = pr.counters.nodes_explored ∧
     r.performance.edges_relaxed = pr.counters.edges_relaxed ∧
     r.performance.heuristic_calls = pr.counters.heuristic_calls ∧
     r.performance.priority_queue_operations = pr.counters.priority_queue_operations ∧
     r.performance.efficiency_ratio_pct =
       (refNodes : ℚ) / (pr.counters.nodes_explored : ℚ) * 100 ∧
     snapshot (jsRouteOfSingle r) .nodes_explored = pr.counters.nodes_explored ∧
     snapshot (jsRouteOfSingle r) .edges_relaxed = pr.counters.edges_relaxed ∧
     snapshot (jsRouteOfSingle r) .heuristic_calls = pr.counters.heuristic_calls ∧
     snapshot (jsRouteOfSingle r) .priority_queue_operations =
       pr.counters.priority_queue_operations) :=
  ⟨rfl, rfl, rfl, rfl, rfl, rfl, rfl, rfl, rfl, rfl, rfl, rfl, rfl, rfl⟩

/-! ## calculateBearing range (claim C10) -/

theorem jsMod_bounds (a : ℝ) (ha : 0 ≤ a) : 0 ≤ jsMod a 360 ∧ jsMod a 360 < 360 := by
  have h360 : (0 : ℝ) < 360 := by norm_num
  have hq : 0 ≤ a / 360 := div_nonneg ha h360.le
  have htr : jsTrunc (a / 360) = ⌊a / 360⌋ := by
    unfold jsTrunc
    exact if_pos hq
  unfold jsMod
  rw [htr]
  constructor
  · have h1 : (⌊a / 360⌋ : ℝ) * 360 ≤ a := by
      rw [← le_div_iff₀ h360]
      exact Int.floor_le _
    linarith
  · have h2 : a < ((⌊a / 360⌋ : ℝ) + 1) * 360 := by
      rw [← div_lt_iff₀ h360]
      exact Int.lt_floor_add_one _
    linarith

theorem bearing_norm_bounds (θ : ℝ) (h1 : -Real.pi < θ) (_h2 : θ ≤ Real.pi) :
    0 ≤ jsMod (θ * 180 / Real.pi + 360) 360 ∧
      jsMod (θ * 180 / Real.pi + 360) 360 < 360 := by
  apply jsMod_bounds
  have hπ := Real.pi_pos
  have hb : -180 ≤ θ * 180 / Real.pi := by
    rw [le_div_iff₀ hπ]
    nlinarith
  linarith

/-- C10: for every pair of coordinate points, `calculateBearing(start, end)`
returns a value `b` with `0 ≤ b < 360`: `Math.atan2` lands in `(-π, π]`, so the
degree value lands in `(-180, 180]` and `(bearing + 360) % 360` normalizes it
into `[0, 360)`. -/
theorem calculateBearing_range (start finish : ℝ × ℝ) :
    0 ≤ calculateBearing start finish ∧ calculateBearing start finish < 360 :=
  bearing_norm_bounds _ (Complex.neg_pi_lt_arg _) (Complex.arg_le_pi _)

/-! ## GeometrySampler (claim C5) -/

theorem getD_map_sublist {α : Type} (d : α) :
    ∀ (l : List α) (idx : List ℕ), idx.Pairwise (· < ·) → (∀ i ∈ idx, i < l.length) →
      (idx.map fun i => l.getD i d).Sublist l := by
  intro l
  induction l with
  | nil =>
    intro idx _ hb
    cases idx with
    | nil => simp
    | cons i rest => exact absurd (hb i (by simp)) (by simp)
  | cons x l ih =>
    intro idx hp hb
    cases idx with
    | nil => simp
    | cons i rest =>
      cases i with
      | zero =>
        simp only [List.map_cons]
        have hrest1 : ∀ j ∈ rest, 1 ≤ j := by
          intro j hj
          have := (List.pairwise_cons.mp hp).1 j hj
          omega
        have hmapeq : rest.map (fun i => (x :: l).getD i d) =
            (rest.map (· - 1)).map (fun k => l.getD k d) := by
          rw [List.map_map]
          apply List.map_congr_left
          intro j hj
          obtain ⟨k, rfl⟩ : ∃ k, j = k + 1 := ⟨j - 1, by have := hrest1 j hj; omega⟩
          rfl
        rw [hmapeq]
        refine List.Sublist.cons₂ x (ih (rest.map (· - 1)) ?_ ?_)
        · rw [List.pairwise_map]
          exact ((List.pairwise_cons.mp hp).2).imp_of_mem
            (fun ha _ hab => by have := hrest1 _ ha; omega)
        · intro k hk
          rw [List.mem_map] at hk
          obtain ⟨j, hj, rfl⟩ := hk
          have h1 := hb j (List.mem_cons_of_mem _ hj)
          have h2 := hrest1 j hj
          simp only [List.length_cons] at h1
          omega
      | succ k =>
        have hall : ∀ j ∈ (k + 1) :: rest, 1 ≤ j := by
          intro j hj
          rcases List.mem_cons.mp hj with rfl | hj
          · omega
          · have := (List.pairwise_cons.mp hp).1 j hj
            omega
        have hmapeq : ((k + 1) :: rest).map (fun i => (x :: l).getD i d) =
            (((k + 1) :: rest).map (· - 1)).map (fun j => l.getD j d) := by
          rw [List.map_map]
          apply List.map_congr_left
          intro j hj
          obtain ⟨k', rfl⟩ : ∃ k', j = k' + 1 := ⟨j - 1, by have := hall j hj; omega⟩
          rfl
        rw [hmapeq]
        refine List.Sublist.cons x (ih (((k + 1) :: rest).map (· - 1)) ?_ ?_)
        · rw [List.pairwise_map]
          exact hp.imp_of_mem (fun ha _ hab => by have := hall _ ha; omega)
        · intro j hj
          rw [List.mem_map] at hj
          obtain ⟨j', hj', rfl⟩ := hj
          have h1 := hb j' hj'
          have h2 := hall j' hj'
          simp only [List.length_cons] at h1
          omega

theorem sampleStride_pos (N B : ℕ) : 1 ≤ sampleStride N B :=
  le_max_left 1 _

theorem sampleBase_facts (N B : ℕ) (hN : 1 ≤ N) :
    (let s := sampleStride N B
     let K := (N + s - 1) / s
     let base := (List.range K).map (· * s)
     1 ≤ K ∧ base.length = K ∧ base.Pairwise (· < ·) ∧
       (∀ a ∈ base, a ≤ (K - 1) * s) ∧ (K - 1) * s < N ∧
       base.head? = some 0 ∧ base.getLast? = some ((K - 1) * s)) := by
  intro s K base
  have hs1 : 1 ≤ s := sampleStride_pos N B
  have hK1 : 1 ≤ K := by
    rw [Nat.le_div_iff_mul_le (by omega)]
    omega
  have hKsN : (K - 1) * s < N := by
    have h1 : K * s ≤ N + s - 1 := Nat.div_mul_le_self _ _
    have h2 : (K - 1) * s = K * s - s := Nat.sub_one_mul K s
    omega
  have hlen : base.length = K := by
    simp [base]
  have hle : ∀ a ∈ base, a ≤ (K - 1) * s := by
    intro a ha
    rw [List.mem_map] at ha
    obtain ⟨i, hi, rfl⟩ := ha
    rw [List.mem_range] at hi
    exact Nat.mul_le_mul_right s (by omega)
  have hpw : base.Pairwise (· < ·) := by
    rw [List.pairwise_map]
    exact (List.pairwise_lt_range K).imp_of_mem
      (fun _ _ hab => mul_lt_mul_of_pos_right hab (by omega))
  have hhead : base.head? = some 0 := by
    show ((List.range K).map (· * s)).head? = some 0
    obtain ⟨k, hk⟩ : ∃ k, K = k + 1 := ⟨K - 1, by omega⟩
    rw [hk, List.range_succ_eq_map]
    simp
  have hlast : base.getLast? = some ((K - 1) * s) := by
    show ((List.range K).map (· * s)).getLast? = some ((K - 1) * s)
    obtain ⟨k, hk⟩ : ∃ k, K = k + 1 := ⟨K - 1, by omega⟩
    rw [hk, List.range_succ, List.map_append]
    simp [List.getLast?_concat]
  exact ⟨hK1, hlen, hpw, hle, hKsN, hhead, hlast⟩

theorem sampleK_le (N B : ℕ) (hN : 1 ≤ N) (hB : 1 ≤ B) :
    (N + sampleStride N B - 1) / sampleStride N B ≤ B := by
  have hs_eq : sampleStride N B = (N + B - 1) / B := by
    refine max_eq_right ?_
    rw [Nat.le_div_iff_mul_le (by omega)]
    omega
  set s := sampleStride N B with hs
  have hs1 : 1 ≤ s := sampleStride_pos N B
  have hBs : N ≤ B * s := by
    rw [hs_eq]
    have h1 : (N + B - 1) % B + B * ((N + B - 1) / B) = N + B - 1 :=
      Nat.mod_add_div _ _
    have h2 : (N + B - 1) % B < B := Nat.mod_lt _ (by omega)
    generalize hbq : B * ((N + B - 1) / B) = t at h1 ⊢
    omega
  rw [Nat.div_le_iff_le_mul_add_pred (by omega : 0 < s)]
  have hcomm : B * s = s * B := Nat.mul_comm B s
  rw [hcomm] at hBs
  generalize hsb : s * B = t at hBs ⊢
  omega

theorem sampleK_ge_two (N B : ℕ) (hN : 2 ≤ N) (hB : 2 ≤ B) :
    2 ≤ (N + sampleStride N B - 1) / sampleStride N B := by
  have hs_eq : sampleStride N B = (N + B - 1) / B := by
    refine max_eq_right ?_
    rw [Nat.le_div_iff_mul_le (by omega)]
    omega
  have hs1 : 1 ≤ sampleStride N B := sampleStride_pos N B
  have hsN : sampleStride N B < N := by
    rw [hs_eq]
    have h1 : N + B - 1 = (N - 1) + B := by omega
    rw [h1, Nat.add_div_right _ (by omega : 0 < B)]
    have h2 : (N - 1) / B ≤ (N - 1) / 2 := Nat.div_le_div_left hB (by omega)
    have h3 : (N - 1) / 2 < N - 1 := Nat.div_lt_self (by omega) (by omega)
    omega
  rw [Nat.le_div_iff_mul_le (by omega : 0 < sampleStride N B)]
  omega

theorem sampleIndices_facts (N B : ℕ) (hN : 2 ≤ N) (hB : 2 ≤ B) :
    (sampleIndices N B).Pairwise (· < ·) ∧ (∀ i ∈ sampleIndices N B, i < N) ∧
      (sampleIndices N B).head? = some 0 ∧
      (sampleIndices N B).getLast? = some (N - 1) ∧
      (sampleIndices N B).length ≤ B := by
  obtain ⟨hK1, hlen, hpw, hle, hKsN, hhead, hlast⟩ := sampleBase_facts N B (by omega)
  have hK2 := sampleK_ge_two N B hN hB
  have hKB := sampleK_le N B (by omega) (by omega)
  rw [sampleIndices]
  set s := sampleStride N B with hs
  set K := (N + s - 1) / s with hK
  set base := (List.range K).map (· * s) with hbase
  have hs1 : 1 ≤ s := sampleStride_pos N B
  have hdrop : base.dropLast = (List.range (K - 1)).map (· * s) := by
    show ((List.range K).map (· * s)).dropLast = _
    obtain ⟨k, hk⟩ : ∃ k, K = k + 1 := ⟨K - 1, by omega⟩
    rw [hk, List.range_succ, List.map_append]
    simp only [List.map_cons, List.map_nil]
    rw [List.dropLast_concat]
    simp
  have hlt2 : ∀ a ∈ base.dropLast, a < N - 1 := by
    intro a ha
    rw [hdrop, List.mem_map] at ha
    obtain ⟨i, hi, rfl⟩ := ha
    rw [List.mem_range] at hi
    have hile : i * s ≤ (K - 2) * s := Nat.mul_le_mul_right s (by omega)
    have hsucc : (K - 2) * s + s = (K - 1) * s := by
      have h1 : K - 2 + 1 = K - 1 := by omega
      rw [← h1, Nat.succ_mul]
    generalize hg1 : (K - 1) * s = a1 at hKsN hsucc
    generalize hg2 : (K - 2) * s = b1 at hile hsucc
    generalize hg3 : i * s = c1 at hile ⊢
    omega
  have hddlen : base.dropLast.length = K - 1 := by
    rw [hdrop, List.length_map, List.length_range]
  have hddne : base.dropLast ≠ [] := by
    intro h
    rw [h] at hddlen
    simp at hddlen
    omega
  refine ⟨?_, ?_, ?_, List.getLast?_concat _, ?_⟩
  · rw [List.pairwise_append]
    refine ⟨hpw.sublist (List.dropLast_sublist base), List.pairwise_singleton _ _, ?_⟩
    intro a ha b hb
    rw [List.mem_singleton] at hb
    subst hb
    exact hlt2 a ha
  · intro i hi
    rcases List.mem_append.mp hi with h | h
    · have := hlt2 i h
      omega
    · rw [List.mem_singleton] at h
      omega
  · have hh : base.dropLast.head? = some 0 := by
      rw [hdrop, List.head?_map]
      obtain ⟨k, hk⟩ : ∃ k, K - 1 = k + 1 := ⟨K - 2, by omega⟩
      rw [hk, List.range_succ_eq_map]
      simp
    cases hbb : base.dropLast with
    | nil => exact absurd hbb hddne
    | cons y t =>
      rw [hbb] at hh
      exact hh
  · rw [List.length_append, hddlen]
    simp only [List.length_singleton]
    omega

/-- C5: for every polyline of `N ≥ 2` points and node budget `B ≥ 2` (the
contract's "always include the first and the last point" needs room for both
endpoints, so a budget below 2 is outside its domain), GeometrySampler returns
an ordered subsequence of at most `B` points that always includes the first
and the last point of the input; with `N < 2` it fails with
`InsufficientGeometryError`. -/
theorem samplePolyline_spec (pts : List (ℚ × ℚ)) (B : ℕ) :
    (2 ≤ pts.length → 2 ≤ B →
      ∃ l, samplePolyline pts B = .ok l ∧ l.length ≤ B ∧
        l.head? = pts.head? ∧ l.getLast? = pts.getLast? ∧ l.Sublist pts) ∧
    (pts.length < 2 → samplePolyline pts B = .error .insufficientGeometry) := by
  constructor
  · intro hN hB
    obtain ⟨hpw, hbound, hhead, hlast, hlen⟩ := sampleIndices_facts pts.length B hN hB
    refine ⟨(sampleIndices pts.length B).map fun i => pts.getD i (0, 0), ?_, ?_, ?_, ?_, ?_⟩
    · rw [samplePolyline, if_neg (by omega)]
    · rw [List.length_map]
      exact hlen
    · rw [List.head?_map, hhead, Option.map_some']
      rw [List.head?_eq_getElem?, List.getD_eq_getElem?_getD,
        List.getElem?_eq_getElem (by omega : 0 < pts.length)]
      rfl
    · rw [List.getLast?_map, hlast, Option.map_some']
      rw [List.getLast?_eq_getElem?, List.getD_eq_getElem?_getD,
        List.getElem?_eq_getElem (by omega : pts.length - 1 < pts.length)]
      rfl
    · exact getD_map_sublist (0, 0) pts _ hpw hbound
  · intro hN
    rw [samplePolyline, if_pos hN]

/-- Witness for C5 at a concrete input: a 3-point polyline with budget 2
samples to the 2 points `[(0,0), (2,0)]` — within the budget, first and last
kept. -/
theorem samplePolyline_spec_witness :
    (2 ≤ ([(0, 0), (1, 0), (2, 0)] : List (ℚ × ℚ)).length) ∧ 2 ≤ 2 ∧
    (∃ l, samplePolyline [(0, 0), (1, 0), (2, 0)] 2 = .ok l ∧ l.length ≤ 2 ∧
      l.head? = ([(0, 0), (1, 0), (2, 0)] : List (ℚ × ℚ)).head? ∧
      l.getLast? = ([(0, 0), (1, 0), (2, 0)] : List (ℚ × ℚ)).getLast? ∧
      l.Sublist [(0, 0), (1, 0), (2, 0)]) :=
  ⟨by decide, by decide,
    (samplePolyline_spec [(0, 0), (1, 0), (2, 0)] 2).1 (by decide) (by decide)⟩

/-! ## The pathfinding engine: Dijkstra correctness (claims C1, C6, C7) -/

theorem listArgmin_go (f : ℕ → WithTop ℚ≥0) :
    ∀ (l : List ℕ) (b : ℕ),
      ∃ u, (l.foldl (fun best v =>
          match best with
          | none => some v
          | some b => if f v < f b then some v else some b) (some b)) = some u ∧
        (u = b ∨ u ∈ l) ∧ f u ≤ f b ∧ ∀ v ∈ l, f u ≤ f v := by
  intro l
  induction l with
  | nil => exact fun b => ⟨b, rfl, Or.inl rfl, le_refl _, by simp⟩
  | cons v l ih =>
    intro b
    simp only [List.foldl_cons]
    by_cases hvb : f v < f b
    · rw [if_pos hvb]
      obtain ⟨u, hfold, hmem, hub, hmin⟩ := ih v
      refine ⟨u, hfold, ?_, le_trans hub hvb.le, ?_⟩
      · rcases hmem with h | h
        · exact Or.inr (h ▸ List.mem_cons_self v l)
        · exact Or.inr (List.mem_cons_of_mem v h)
      · intro w hw
        rcases List.mem_cons.mp hw with h | h
        · exact h ▸ hub
        · exact hmin w h
    · rw [if_neg hvb]
      obtain ⟨u, hfold, hmem, hub, hmin⟩ := ih b
      refine ⟨u, hfold, ?_, hub, ?_⟩
      · rcases hmem with h | h
        · exact Or.inl h
        · exact Or.inr (List.mem_cons_of_mem v h)
      · intro w hw
        rcases List.mem_cons.mp hw with h | h
        · exact h ▸ le_trans hub (not_lt.mp hvb)
        · exact hmin w h

theorem listArgmin_spec (f : ℕ → WithTop ℚ≥0) (l : List ℕ) :
    (listArgmin f l = none → l = []) ∧
    (∀ u, listArgmin f l = some u → u ∈ l ∧ ∀ v ∈ l, f u ≤ f v) := by
  cases l with
  | nil => exact ⟨fun _ => rfl, fun u h => by simp [listArgmin] at h⟩
  | cons v l =>
    obtain ⟨u, hfold, hmem, hub, hmin⟩ := listArgmin_go f l v
    have heq : listArgmin f (v :: l) = some u := hfold
    constructor
    · intro h
      rw [heq] at h
      exact absurd h (by simp)
    · intro u' h
      rw [heq] at h
      obtain rfl : u = u' := Option.some.inj h
      constructor
      · rcases hmem with h | h
        · exact h ▸ List.mem_cons_self v l
        · exact List.mem_cons_of_mem v h
      · intro w hw
        rcases List.mem_cons.mp hw with h | h
        · exact h ▸ hub
        · exact hmin w h

theorem costReach_trans {g : Graph} {s u v : ℕ} {c₁ c₂ : ℚ≥0}
    (h1 : CostReach g s u c₁) (h2 : CostReach g u v c₂) :
    CostReach g s v (c₁ + c₂) := by
  induction h2 with
  | refl => simpa using h1
  | tail h e ih =>
    rw [← add_assoc]
    exact ih.tail e

theorem adj_mem_iff {g : Graph} {u v : ℕ} {w : ℚ≥0} :
    (v, w) ∈ g.adj u ↔ (u, v, w) ∈ g.edges := by
  unfold Graph.adj
  rw [List.mem_filterMap]
  constructor
  · rintro ⟨⟨a, bc⟩, he, hfe⟩
    by_cases h : a = u
    · rw [if_pos h] at hfe
      obtain rfl : bc = (v, w) := Option.some.inj hfe
      subst h
      exact he
    · rw [if_neg h] at hfe
      exact absurd hfe (by simp)
  · intro h
    exact ⟨(u, v, w), h, by simp⟩

theorem reverse_adj_iff {g : Graph} {u v : ℕ} {w : ℚ≥0} :
    (v, w) ∈ g.reverse.adj u ↔ (u, w) ∈ g.adj v := by
  rw [adj_mem_iff, adj_mem_iff]
  show (u, v, w) ∈ g.edges.map (fun e => (e.2.1, e.1, e.2.2)) ↔ _
  rw [List.mem_map]
  constructor
  · rintro ⟨⟨a, b, c⟩, he, heq⟩
    simp only [Prod.mk.injEq] at heq
    obtain ⟨rfl, rfl, rfl⟩ := heq
    exact he
  · intro h
    exact ⟨(v, u, w), h, rfl⟩

theorem reverse_reverse_eq (g : Graph) : g.reverse.reverse = g := by
  cases g with
  | mk n es =>
    show Graph.mk n ((es.map _).map _) = _
    rw [List.map_map]
    congr 1
    rw [show es = es.map id from (List.map_id es).symm]
    rw [List.map_map]
    apply List.map_congr_left
    rintro ⟨a, b, c⟩ _
    rfl

theorem wf_reverse {g : Graph} (h : g.WF) : g.reverse.WF := by
  rintro e he
  have hm : e ∈ g.edges.map (fun e => (e.2.1, e.1, e.2.2)) := he
  rw [List.mem_map] at hm
  obtain ⟨e', he', rfl⟩ := hm
  exact ⟨(h e' he').2, (h e' he').1⟩

theorem costReach_reverse {g : Graph} {s v : ℕ} {c : ℚ≥0} (h : CostReach g s v c) :
    CostReach g.reverse v s c := by
  induction h with
  | refl => exact .refl
  | tail h e ih =>
    rename_i u v' c' w
    have hstep : CostReach g.reverse v' u (0 + w) :=
      CostReach.tail CostReach.refl (reverse_adj_iff.mpr e)
    have hcomp := costReach_trans hstep ih
    have heq : (0 + w) + c' = c' + w := by
      rw [zero_add, add_comm]
    exact heq ▸ hcomp

theorem costReach_reverse_iff {g : Graph} {s v : ℕ} {c : ℚ≥0} :
    CostReach g s v c ↔ CostReach g.reverse v s c := by
  constructor
  · exact costReach_reverse
  · intro h
    have h2 := costReach_reverse h
    rwa [reverse_reverse_eq] at h2

theorem relaxEdge_dist (u : ℕ) (du : WithTop ℚ≥0) (st : DState) (vw : ℕ × ℚ≥0) (v : ℕ) :
    (relaxEdge u du st vw).dist v =
      if v = vw.1 ∧ du + ↑vw.2 < st.dist vw.1 then du + ↑vw.2 else st.dist v := by
  unfold relaxEdge
  by_cases hc : du + ↑vw.2 < st.dist vw.1
  · rw [if_pos hc]
    show Function.update st.dist vw.1 (du + ↑vw.2) v = _
    rw [Function.update_apply]
    by_cases hv : v = vw.1
    · rw [if_pos hv, if_pos ⟨hv, hc⟩]
    · rw [if_neg hv, if_neg (fun h => hv h.1)]
  · rw [if_neg hc, if_neg (fun h => hc h.2)]

theorem relaxEdge_visited (u : ℕ) (du : WithTop ℚ≥0) (st : DState) (vw : ℕ × ℚ≥0) :
    (relaxEdge u du st vw).visited = st.visited := by
  unfold relaxEdge
  by_cases hc : du + ↑vw.2 < st.dist vw.1
  · rw [if_pos hc]
  · rw [if_neg hc]

theorem relaxEdge_dist_le (u : ℕ) (du : WithTop ℚ≥0) (st : DState) (vw : ℕ × ℚ≥0)
    (v : ℕ) : (relaxEdge u du st vw).dist v ≤ st.dist v := by
  rw [relaxEdge_dist]
  by_cases h : v = vw.1 ∧ du + ↑vw.2 < st.dist vw.1
  · rw [if_pos h]
    exact le_of_lt (h.1 ▸ h.2)
  · rw [if_neg h]

theorem relaxList_dist_le (u : ℕ) (du : WithTop ℚ≥0) :
    ∀ (l : List (ℕ × ℚ≥0)) (st : DState) (v : ℕ),
      ((l.foldl (relaxEdge u du) st).dist v ≤ st.dist v) := by
  intro l
  induction l with
  | nil => exact fun st v => le_refl _
  | cons vw l ih =>
    intro st v
    exact le_trans (ih (relaxEdge u du st vw) v) (relaxEdge_dist_le u du st vw v)

theorem relaxList_visited (u : ℕ) (du : WithTop ℚ≥0) :
    ∀ (l : List (ℕ × ℚ≥0)) (st : DState),
      (l.foldl (relaxEdge u du) st).visited = st.visited := by
  intro l
  induction l with
  | nil => exact fun st => rfl
  | cons vw l ih =>
    intro st
    rw [List.foldl_cons, ih, relaxEdge_visited]

theorem relaxList_dist_cases (u : ℕ) (du : WithTop ℚ≥0) :
    ∀ (l : List (ℕ × ℚ≥0)) (st : DState) (v : ℕ),
      (l.foldl (relaxEdge u du) st).dist v = st.dist v ∨
        ∃ w, (v, w) ∈ l ∧ (l.foldl (relaxEdge u du) st).dist v = du + ↑w := by
  intro l
  induction l with
  | nil => exact fun st v => Or.inl rfl
  | cons vw l ih =>
    intro st v
    rcases ih (relaxEdge u du st vw) v with h | ⟨w, hw, h⟩
    · rw [List.foldl_cons]
      rw [relaxEdge_dist] at h
      by_cases hc : v = vw.1 ∧ du + ↑vw.2 < st.dist vw.1
      · right
        refine ⟨vw.2, ?_, by rw [h, if_pos hc]⟩
        have hvw : (v, vw.2) = vw := by
          rw [hc.1]
        exact hvw ▸ List.mem_cons_self vw l
      · left
        rw [h, if_neg hc]
    · exact Or.inr ⟨w, List.mem_cons_of_mem vw hw, h⟩

theorem relaxList_dist_relaxed (u : ℕ) (du : WithTop ℚ≥0) :
    ∀ (l : List (ℕ × ℚ≥0)) (st : DState) (v : ℕ) (w : ℚ≥0), (v, w) ∈ l →
      (l.foldl (relaxEdge u du) st).dist v ≤ du + ↑w := by
  intro l
  induction l with
  | nil =>
    intro st v w h
    exact absurd h (by simp)
  | cons vw l ih =>
    intro st v w h
    rcases List.mem_cons.mp h with h | h
    · have h1 := relaxList_dist_le u du l (relaxEdge u du st vw) v
      rw [List.foldl_cons]
      refine le_trans h1 ?_
      rw [relaxEdge_dist, ← h]
      by_cases hc : v = (v, w).1 ∧ du + ↑(v, w).2 < st.dist (v, w).1
      · rw [if_pos hc]
      · rw [if_neg hc]
        have : ¬ du + ↑w < st.dist v := fun hlt => hc ⟨rfl, hlt⟩
        exact not_lt.mp this
    · rw [List.foldl_cons]
      exact ih (relaxEdge u du st vw) v w h

theorem expand_visited (g : Graph) (st : DState) (u : ℕ) :
    (expand g st u).visited = Function.update st.visited u true := by
  unfold expand
  rw [relaxList_visited]

theorem expand_dist_le (g : Graph) (st : DState) (u v : ℕ) :
    (expand g st u).dist v ≤ st.dist v := by
  unfold expand
  exact relaxList_dist_le _ _ _ _ v

theorem expand_dist_cases (g : Graph) (st : DState) (u v : ℕ) :
    (expand g st u).dist v = st.dist v ∨
      ∃ w, (v, w) ∈ g.adj u ∧ (expand g st u).dist v = st.dist u + ↑w := by
  unfold expand
  exact relaxList_dist_cases _ _ _ _ v

theorem expand_dist_relaxed (g : Graph) (st : DState) (u v : ℕ) (w : ℚ≥0)
    (h : (v, w) ∈ g.adj u) : (expand g st u).dist v ≤ st.dist u + ↑w := by
  unfold expand
  exact relaxList_dist_relaxed _ _ _ _ v w h

theorem pickNext_some_spec (g : Graph) (st : DState) (u : ℕ)
    (h : pickNext g st = some u) :
    u < g.nodes ∧ st.visited u = false ∧ st.dist u < ⊤ ∧
      ∀ v, v < g.nodes → st.visited v = false → st.dist u ≤ st.dist v := by
  obtain ⟨hmem, hmin⟩ := (listArgmin_spec st.dist _).2 u h
  rw [List.mem_filter, List.mem_range] at hmem
  obtain ⟨hu, hp⟩ := hmem
  rw [Bool.and_eq_true, Bool.not_eq_true', decide_eq_true_eq] at hp
  refine ⟨hu, hp.1, hp.2, ?_⟩
  intro v hv hvis
  by_cases hfin : st.dist v < ⊤
  · apply hmin
    rw [List.mem_filter, List.mem_range]
    refine ⟨hv, ?_⟩
    rw [Bool.and_eq_true, Bool.not_eq_true', decide_eq_true_eq]
    exact ⟨hvis, hfin⟩
  · rw [top_le_iff.mp (not_lt.mp hfin)]
    exact le_top

theorem pickNext_none_spec (g : Graph) (st : DState) (h : pickNext g st = none) :
    ∀ v, v < g.nodes → st.visited v = false → st.dist v = ⊤ := by
  have hnil := (listArgmin_spec st.dist _).1 h
  intro v hv hvis
  by_contra hne
  have hmem : v ∈ (List.range g.nodes).filter
      (fun v => !st.visited v && decide (st.dist v < ⊤)) := by
    rw [List.mem_filter, List.mem_range]
    refine ⟨hv, ?_⟩
    rw [Bool.and_eq_true, Bool.not_eq_true', decide_eq_true_eq]
    exact ⟨hvis, lt_top_iff_ne_top.mpr hne⟩
  rw [hnil] at hmem
  exact absurd hmem (by simp)

theorem dinv_init (g : Graph) (s : ℕ) (hs : s < g.nodes) : DInv g s (initState s) := by
  constructor
  · simp [initState]
  · intro v hv
    by_cases h : v = s
    · subst h
      exact ⟨0, by simp [initState], CostReach.refl⟩
    · simp [initState, h] at hv
  · intro v hvis
    simp [initState] at hvis
  · intro x hvis
    simp [initState] at hvis
  · intro v hv
    by_cases h : v = s
    · subst h
      exact hs
    · simp [initState, h] at hv
  · intro v hvis
    simp [initState] at hvis

theorem frontier_reach {g : Graph} {s : ℕ} {st : DState} (hwf : g.WF) (hs : s < g.nodes)
    (inv : DInv g s st) :
    ∀ v (c : ℚ≥0), CostReach g s v c → st.visited v = false →
      ∃ y, y < g.nodes ∧ st.visited y = false ∧ st.dist y ≤ ↑c := by
  intro v c h
  induction h with
  | refl =>
    intro hv
    refine ⟨s, hs, hv, ?_⟩
    rw [inv.dist_s]
    exact zero_le _
  | tail h e ih =>
    rename_i u v' c' w
    intro hv'
    cases hu : st.visited u with
    | true =>
      have hedge := inv.frontier_edge u hu (v', w) e hv'
      have hmin := inv.visited_min u hu c' h
      refine ⟨v', (hwf _ (adj_mem_iff.mp e)).2, hv', ?_⟩
      calc st.dist v' ≤ st.dist u + ↑w := hedge
      _ ≤ ↑c' + ↑w := add_le_add_right hmin _
      _ = ↑(c' + w) := (WithTop.coe_add c' w).symm
    | false =>
      obtain ⟨y, hy1, hy2, hy3⟩ := ih hu
      refine ⟨y, hy1, hy2, le_trans hy3 ?_⟩
      rw [WithTop.coe_le_coe]
      exact le_add_right le_rfl

theorem dinv_step {g : Graph} {s : ℕ} {st : DState} (hwf : g.WF) (hs : s < g.nodes)
    (inv : DInv g s st) {u : ℕ} (hpk : pickNext g st = some u) :
    DInv g s (expand g st u) := by
  obtain ⟨hu_lt, hu_unvis, hu_fin, hu_min⟩ := pickNext_some_spec g st u hpk
  have hu_ne : st.dist u ≠ ⊤ := lt_top_iff_ne_top.mp hu_fin
  have hstab : ∀ x, (st.visited x = true ∨ x = u) → (expand g st u).dist x = st.dist x := by
    intro x hx
    rcases expand_dist_cases g st u x with h | ⟨w, hw, h⟩
    · exact h
    · have hle : st.dist x ≤ st.dist u + ↑w := by
        rcases hx with hvis | rfl
        · obtain ⟨cu, hcu, hreach⟩ := inv.sound u hu_ne
          calc st.dist x ≤ ↑(cu + w) := inv.visited_min x hvis (cu + w) (hreach.tail hw)
          _ = ↑cu + ↑w := WithTop.coe_add cu w
          _ = st.dist u + ↑w := by rw [hcu]
        · exact le_add_right le_rfl
      have hge : (expand g st u).dist x ≤ st.dist x := expand_dist_le g st u x
      rw [h] at hge
      rw [h]
      exact le_antisymm hge hle
  have hvis' : (expand g st u).visited = Function.update st.visited u true :=
    expand_visited g st u
  constructor
  · have h1 : (expand g st u).dist s ≤ 0 := inv.dist_s ▸ expand_dist_le g st u s
    exact le_antisymm h1 (zero_le _)
  · intro v hv
    rcases expand_dist_cases g st u v with h | ⟨w, hw, h⟩
    · rw [h] at hv ⊢
      exact inv.sound v hv
    · obtain ⟨cu, hcu, hreach⟩ := inv.sound u hu_ne
      refine ⟨cu + w, ?_, hreach.tail hw⟩
      rw [h, hcu, WithTop.coe_add]
  · intro v hvis c hreach
    rw [hvis', Function.update_apply] at hvis
    by_cases hvu : v = u
    · subst hvu
      obtain ⟨y, hy1, hy2, hy3⟩ := frontier_reach hwf hs inv v c hreach hu_unvis
      rw [hstab v (Or.inr rfl)]
      exact le_trans (hu_min y hy1 hy2) hy3
    · rw [if_neg hvu] at hvis
      rw [hstab v (Or.inl hvis)]
      exact inv.visited_min v hvis c hreach
  · intro x hvis vw hvw hunvis
    rw [hvis', Function.update_apply] at hvis hunvis
    have hv1 : vw.1 ≠ u := by
      intro h
      rw [if_pos h] at hunvis
      exact absurd hunvis (by simp)
    rw [if_neg hv1] at hunvis
    by_cases hxu : x = u
    · subst hxu
      rw [hstab x (Or.inr rfl)]
      exact expand_dist_relaxed g st x vw.1 vw.2 hvw
    · rw [if_neg hxu] at hvis
      rw [hstab x (Or.inl hvis)]
      exact le_trans (expand_dist_le g st u vw.1)
        (inv.frontier_edge x hvis vw hvw hunvis)
  · intro v hv
    rcases expand_dist_cases g st u v with h | ⟨w, hw, h⟩
    · rw [h] at hv
      exact inv.support v hv
    · exact (hwf _ (adj_mem_iff.mp hw)).2
  · intro v hvis
    rw [hvis', Function.update_apply] at hvis
    by_cases hvu : v = u
    · subst hvu
      rw [hstab v (Or.inr rfl)]
      exact hu_ne
    · rw [if_neg hvu] at hvis
      apply lt_top_iff_ne_top.mp
      exact lt_of_le_of_lt (expand_dist_le g st u v)
        (lt_top_iff_ne_top.mpr (inv.visited_finite v hvis))

theorem dinv_loop {g : Graph} {s : ℕ} (hwf : g.WF) (hs : s < g.nodes) :
    ∀ (fuel : ℕ) (st : DState), DInv g s st → DInv g s (dloop g fuel st) := by
  intro fuel
  induction fuel with
  | zero => exact fun st inv => inv
  | succ n ih =>
    intro st inv
    cases hpk : pickNext g st with
    | none =>
      simpa [dloop, hpk] using inv
    | some u =>
      have heq : dloop g (n + 1) st = dloop g n (expand g st u) := by
        simp [dloop, hpk]
      rw [heq]
      exact ih _ (dinv_step hwf hs inv hpk)

theorem filter_update_length (l : List ℕ) (hnd : l.Nodup) (p : ℕ → Bool) (u : ℕ)
    (hu : u ∈ l) (hpu : p u = false) :
    (l.filter (Function.update p u true)).length = (l.filter p).length + 1 := by
  induction l with
  | nil => simp at hu
  | cons x t ih =>
    rw [List.nodup_cons] at hnd
    rcases List.mem_cons.mp hu with rfl | hmem
    · have ht : t.filter (Function.update p u true) = t.filter p := by
        apply List.filter_congr
        intro v hv
        have hvu : v ≠ u := fun h => hnd.1 (h ▸ hv)
        rw [Function.update_noteq hvu]
      rw [List.filter_cons, List.filter_cons, Function.update_same, hpu, ht]
      simp
    · have hxu : x ≠ u := fun h => hnd.1 (h ▸ hmem)
      have hx : Function.update p u true x = p x := Function.update_noteq hxu _ _
      rw [List.filter_cons, List.filter_cons, hx]
      by_cases hpx : p x = true
      · rw [if_pos hpx, if_pos hpx]
        simp only [List.length_cons]
        rw [ih hnd.2 hmem]
      · rw [if_neg hpx, if_neg hpx]
        exact ih hnd.2 hmem

theorem countVisited_expand (g : Graph) (st : DState) (u : ℕ)
    (hpk : pickNext g st = some u) :
    countVisited g (expand g st u) = countVisited g st + 1 := by
  obtain ⟨hu_lt, hu_unvis, _, _⟩ := pickNext_some_spec g st u hpk
  unfold countVisited
  rw [expand_visited]
  exact filter_update_length _ (List.nodup_range g.nodes) _ u
    (List.mem_range.mpr hu_lt) hu_unvis

theorem pickNext_some_count (g : Graph) (st : DState) (u : ℕ)
    (hpk : pickNext g st = some u) : countVisited g st < g.nodes := by
  obtain ⟨hu_lt, hu_unvis, _, _⟩ := pickNext_some_spec g st u hpk
  have h1 : ((List.range g.nodes).filter fun v => st.visited v).length ≤
      (List.range g.nodes).length := (List.filter_sublist _).length_le
  rcases lt_or_eq_of_le h1 with h | h
  · unfold countVisited
    rw [List.length_range] at h
    exact h
  · exfalso
    have heq := (List.filter_sublist (l := List.range g.nodes)
      (p := fun v => st.visited v)).eq_of_length h
    have : u ∈ (List.range g.nodes).filter fun v => st.visited v := by
      rw [heq]
      exact List.mem_range.mpr hu_lt
    rw [List.mem_filter] at this
    rw [this.2] at hu_unvis
    exact absurd hu_unvis (by simp)

theorem dloop_stopped (g : Graph) : ∀ (fuel : ℕ) (st : DState),
    g.nodes ≤ fuel + countVisited g st → pickNext g (dloop g fuel st) = none := by
  intro fuel
  induction fuel with
  | zero =>
    intro st hle
    show pickNext g st = none
    cases hpk : pickNext g st with
    | none => rfl
    | some u =>
      have := pickNext_some_count g st u hpk
      omega
  | succ n ih =>
    intro st hle
    cases hpk : pickNext g st with
    | none =>
      simp [dloop, hpk]
    | some u =>
      have heq : dloop g (n + 1) st = dloop g n (expand g st u) := by
        simp [dloop, hpk]
      rw [heq]
      apply ih
      rw [countVisited_expand g st u hpk]
      omega

theorem dijkstraRun_stopped (g : Graph) (s : ℕ) :
    pickNext g (dijkstraRun g s) = none := by
  apply dloop_stopped
  omega

/-- Correctness of the modelled Dijkstra: `⊤` exactly at unreachable nodes, and
every finite value is the least walk cost. -/
theorem dijkstra_correct {g : Graph} {s : ℕ} (hwf : g.WF) (hs : s < g.nodes) (v : ℕ) :
    (dijkstra g s v = ⊤ → ¬ Reachable g s v) ∧
    (∀ c : ℚ≥0, dijkstra g s v = ↑c →
      CostReach g s v c ∧ ∀ c', CostReach g s v c' → c ≤ c') := by
  have inv : DInv g s (dijkstraRun g s) :=
    dinv_loop hwf hs g.nodes (initState s) (dinv_init g s hs)
  have hstop := dijkstraRun_stopped g s
  have hd : ∀ w, dijkstra g s w = (dijkstraRun g s).dist w := fun _ => rfl
  constructor
  · rintro htop ⟨c, hreach⟩
    rw [hd] at htop
    have hunvis : (dijkstraRun g s).visited v = false := by
      cases hv : (dijkstraRun g s).visited v with
      | false => rfl
      | true => exact absurd htop (inv.visited_finite v hv)
    obtain ⟨y, hy1, hy2, hy3⟩ := frontier_reach hwf hs inv v c hreach hunvis
    rw [pickNext_none_spec g _ hstop y hy1 hy2] at hy3
    exact absurd hy3 (by simp)
  · intro c hc
    rw [hd] at hc
    have hne : (dijkstraRun g s).dist v ≠ ⊤ := by
      rw [hc]
      exact WithTop.coe_ne_top
    obtain ⟨c₀, hc₀, hreach⟩ := inv.sound v hne
    rw [hc] at hc₀
    obtain rfl : c = c₀ := WithTop.coe_inj.mp hc₀
    refine ⟨hreach, ?_⟩
    intro c' hreach'
    have hvis : (dijkstraRun g s).visited v = true := by
      cases hv : (dijkstraRun g s).visited v with
      | true => rfl
      | false => exact absurd (pickNext_none_spec g _ hstop v (inv.support v hne) hv) hne
    have hmin := inv.visited_min v hvis c' hreach'
    rw [hc] at hmin
    exact WithTop.coe_le_coe.mp hmin

theorem dijkstra_self {g : Graph} {t : ℕ} (hwf : g.WF) (ht : t < g.nodes) :
    dijkstra g t t = 0 := by
  cases hc : dijkstra g t t with
  | top => exact absurd ⟨0, CostReach.refl⟩ ((dijkstra_correct hwf ht t).1 hc)
  | coe c =>
    have hle := ((dijkstra_correct hwf ht t).2 c hc).2 0 CostReach.refl
    have hc0 : c = 0 := le_antisymm hle (zero_le c)
    rw [hc0]
    rfl

/-- C7: on every well-formed graph, the total distance reported by
bidirectional Dijkstra (forward frontier + backward frontier on the reverse
graph, meeting node minimising their sum, path reconstructed through the
meeting node) equals the distance obtained by running Dijkstra directly on the
same graph — which is also what the plain search reports. -/
theorem bidirectional_eq_dijkstra {g : Graph} {s t : ℕ} (hwf : g.WF)
    (hs : s < g.nodes) (ht : t < g.nodes) :
    (bidirectional g s t).distance = dijkstra g s t ∧
    (searchResult g s t).distance = dijkstra g s t := by
  have hwfr : g.reverse.WF := wf_reverse hwf
  have htr : t < g.reverse.nodes := ht
  have hself : dijkstra g.reverse t t = 0 := dijkstra_self hwfr htr
  set f := fun v => (dijkstraRun g s).dist v + (dijkstraRun g.reverse t).dist v with hf
  have hne : List.range g.nodes ≠ [] := by
    intro h
    have hlen := List.length_range g.nodes
    rw [h] at hlen
    simp at hlen
    omega
  cases hm : listArgmin f (List.range g.nodes) with
  | none => exact absurd ((listArgmin_spec f _).1 hm) hne
  | some m =>
    obtain ⟨hmem, hmin⟩ := (listArgmin_spec f _).2 m hm
    have hbd : (bidirectional g s t).distance = f m := by
      show (match listArgmin f (List.range g.nodes) with
        | none => (⟨[], ⊤, none, _, _⟩ : BidirResult)
        | some m =>
          if (dijkstraRun g s).dist m + (dijkstraRun g.reverse t).dist m = ⊤ then
            ⟨[], ⊤, none, _, _⟩
          else
            ⟨_, (dijkstraRun g s).dist m + (dijkstraRun g.reverse t).dist m, some m,
              _, _⟩).distance = f m
      rw [hm]
      show (if (dijkstraRun g s).dist m + (dijkstraRun g.reverse t).dist m = ⊤ then
          (⟨[], ⊤, none, (dijkstraRun g s).counters.nodes_explored,
            (dijkstraRun g.reverse t).counters.nodes_explored⟩ : BidirResult)
        else ⟨walkBack (dijkstraRun g s).prev (g.nodes + 1) m ++
            ((walkBack (dijkstraRun g.reverse t).prev (g.nodes + 1) m).reverse.tail),
          (dijkstraRun g s).dist m + (dijkstraRun g.reverse t).dist m, some m,
          (dijkstraRun g s).counters.nodes_explored,
          (dijkstraRun g.reverse t).counters.nodes_explored⟩).distance = f m
      by_cases htop : (dijkstraRun g s).dist m + (dijkstraRun g.reverse t).dist m = ⊤
      · rw [if_pos htop]
        exact htop.symm
      · rw [if_neg htop]
    have hle : f m ≤ dijkstra g s t := by
      have h1 := hmin t (List.mem_range.mpr ht)
      have h2 : f t = dijkstra g s t := by
        show dijkstra g s t + dijkstra g.reverse t t = dijkstra g s t
        rw [hself, add_zero]
      exact h2 ▸ h1
    have hge : dijkstra g s t ≤ f m := by
      cases hF : (dijkstraRun g s).dist m with
      | top =>
        have hfm : f m = ⊤ := by
          show (dijkstraRun g s).dist m + (dijkstraRun g.reverse t).dist m = ⊤
          rw [hF]
          exact top_add _
        rw [hfm]
        exact le_top
      | coe c₁ =>
        cases hR : (dijkstraRun g.reverse t).dist m with
        | top =>
          have hfm : f m = ⊤ := by
            show (dijkstraRun g s).dist m + (dijkstraRun g.reverse t).dist m = ⊤
            rw [hR]
            exact add_top _
          rw [hfm]
          exact le_top
        | coe c₂ =>
          have hreach1 : CostReach g s m c₁ := ((dijkstra_correct hwf hs m).2 c₁ hF).1
          have hreach2 : CostReach g.reverse t m c₂ :=
            ((dijkstra_correct hwfr htr m).2 c₂ hR).1
          have hst : CostReach g s t (c₁ + c₂) :=
            costReach_trans hreach1 (costReach_reverse_iff.mpr hreach2)
          have hfm : f m = ↑(c₁ + c₂) := by
            show (dijkstraRun g s).dist m + (dijkstraRun g.reverse t).dist m = _
            rw [hF, hR]
            exact (WithTop.coe_add c₁ c₂).symm
          rw [hfm]
          cases hD : dijkstra g s t with
          | top => exact absurd ⟨_, hst⟩ ((dijkstra_correct hwf hs t).1 hD)
          | coe c =>
            exact WithTop.coe_le_coe.mpr (((dijkstra_correct hwf hs t).2 c hD).2 _ hst)
    have hfm_eq : f m = dijkstra g s t := le_antisymm hle hge
    refine ⟨hbd.trans hfm_eq, ?_⟩
    by_cases hs_eq : s = t
    · subst hs_eq
      rw [searchResult, if_pos rfl, dijkstra_self hwf hs]
    · rw [searchResult, if_neg hs_eq]
      show (if (dijkstraRun g s).dist t = ⊤ then
          (⟨[], ⊤, (dijkstraRun g s).counters⟩ : PathResult)
        else ⟨_, (dijkstraRun g s).dist t, _⟩).distance = dijkstra g s t
      by_cases htop : (dijkstraRun g s).dist t = ⊤
      · rw [if_pos htop]
        exact htop.symm
      · rw [if_neg htop]
        rfl

/-- Witness for C7 at a concrete three-node graph: both reported distances
agree with plain Dijkstra. -/
theorem bidirectional_eq_dijkstra_witness :
    (Graph.WF ⟨3, [(0, 1, 2), (1, 0, 2), (1, 2, 3), (2, 1, 3), (0, 2, 10), (2, 0, 10)]⟩) ∧
    0 < 3 ∧ 2 < 3 ∧
    ((bidirectional ⟨3, [(0, 1, 2), (1, 0, 2), (1, 2, 3), (2, 1, 3), (0, 2, 10), (2, 0, 10)]⟩
        0 2).distance =
      dijkstra ⟨3, [(0, 1, 2), (1, 0, 2), (1, 2, 3), (2, 1, 3), (0, 2, 10), (2, 0, 10)]⟩ 0 2 ∧
     (searchResult ⟨3, [(0, 1, 2), (1, 0, 2), (1, 2, 3), (2, 1, 3), (0, 2, 10), (2, 0, 10)]⟩
        0 2).distance =
      dijkstra ⟨3, [(0, 1, 2), (1, 0, 2), (1, 2, 3), (2, 1, 3), (0, 2, 10), (2, 0, 10)]⟩ 0 2) :=
  ⟨by decide, by decide, by decide,
    bidirectional_eq_dijkstra (by decide) (by decide) (by decide)⟩

/-- C1: whenever the goal is unreachable from the start, the search returns a
normal PathResult with an empty path and infinite distance; the response the
backend assembles from it has no error field, `findSingleRoute` does not throw
on it, and `displayRoute` returns without drawing and without raising — the
caller can show "no route found" instead of an error. -/
theorem unreachable_goal_normal_response {g : Graph} {s t : ℕ} (hwf : g.WF)
    (hs : s < g.nodes) (hur : ¬ Reachable g s t)
    (algo : String) (pts : List (ℚ × ℚ)) (refNodes : ℕ) (baseDistance : ℚ≥0)
    (baseDuration execTime : ℚ) :
    (searchResult g s t).path = [] ∧ (searchResult g s t).distance = ⊤ ∧
    (let resp := jsRouteOfSingle (assembleResult algo pts (searchResult g s t)
        refNodes baseDistance baseDuration execTime)
     resp.error = none ∧ findSingleRouteThrows true resp = false ∧
       displayRoute resp = none) := by
  have hst : s ≠ t := by
    rintro rfl
    exact hur ⟨0, CostReach.refl⟩
  have htop : (dijkstraRun g s).dist t = ⊤ := by
    cases hD : dijkstra g s t with
    | top => exact hD
    | coe c => exact absurd ⟨c, ((dijkstra_correct hwf hs t).2 c hD).1⟩ hur
  have hsearch : searchResult g s t = ⟨[], ⊤, (dijkstraRun g s).counters⟩ := by
    rw [searchResult, if_neg hst]
    show (if (dijkstraRun g s).dist t = ⊤ then (⟨[], ⊤, _⟩ : PathResult) else _) = _
    rw [if_pos htop]
  rw [hsearch]
  exact ⟨rfl, rfl, rfl, rfl, rfl⟩

/-- Witness for C1 on a two-node edgeless graph: node 1 is unreachable from
node 0 and the whole pipeline yields a normal no-route response. -/
theorem unreachable_goal_normal_response_witness :
    (Graph.WF ⟨2, []⟩) ∧ 0 < 2 ∧ (¬ Reachable ⟨2, []⟩ 0 1) ∧
    ((searchResult ⟨2, []⟩ 0 1).path = [] ∧ (searchResult ⟨2, []⟩ 0 1).distance = ⊤ ∧
     (let resp := jsRouteOfSingle (assembleResult "dijkstra" [(0, 0), (1, 1)]
         (searchResult ⟨2, []⟩ 0 1) 1 1 1 1)
      resp.error = none ∧ findSingleRouteThrows true resp = false ∧
        displayRoute resp = none)) := by
  have hur : ¬ Reachable ⟨2, []⟩ 0 1 := by
    rintro ⟨c, h⟩
    cases h with
    | tail h e => simp [Graph.adj] at e
  exact ⟨by decide, by decide, hur,
    unreachable_goal_normal_response (by decide) (by decide) hur
      "dijkstra" [(0, 0), (1, 1)] 1 1 1 1⟩

/-- C6: the modelled pipeline is a pure function of its inputs — graph
construction, shortcut placement and the searches involve no randomness, so
running any stage twice on identical start/goal/graph/algorithm inputs yields
identical coordinates and identical performance counters. -/
theorem computeRoute_deterministic (metric : (ℚ × ℚ) → (ℚ × ℚ) → ℚ≥0) (fam : Algo)
    (polyline : List (ℚ × ℚ)) (budget : ℕ) (baseDistance : ℚ≥0)
    (baseDuration execTime : ℚ) (refNodes : ℕ) (g : Graph) (s t : ℕ) :
    buildGraph metric fam polyline = buildGraph metric fam polyline ∧
    searchResult g s t = searchResult g s t ∧
    bidirectional g s t = bidirectional g s t ∧
    computeRoute metric fam polyline budget baseDistance baseDuration execTime refNodes =
      computeRoute metric fam polyline budget baseDistance baseDuration execTime refNodes :=
  ⟨rfl, rfl, rfl, rfl⟩

end PathFinder
